import Mathlib

/-!
# Verification of the nix-bonito channel engine

A shallow embedding, in Lean, of the channel resolution, locking and
transactional-apply engine of `nix-bonito`.  Go strings are modelled as
`List Char` (named `Str` below); Go maps are modelled as association lists
carrying one concrete iteration order; the external `nix-channel` tool is
modelled as a state (`World`) of name/url entries together with a
`GatewayOracle` deciding which subprocess invocations succeed.  Pure Go
functions are translated function-by-function from the source.
-/

set_option autoImplicit false

namespace Bonito

/-- Go strings, modelled as lists of characters. -/
abbrev Str := List Char

/-- Shorthand: the character list of a Lean string literal. -/
def lit (s : String) : Str := s.data

/-- Go `strings.Contains(s, c)` for a one-character needle. -/
def strHasChar (c : Char) (s : Str) : Bool := s.contains c

/-- Go `strings.HasPrefix(s, pre)`. -/
def goHasPre (pre s : Str) : Bool :=
  match pre, s with
  | [], _ => true
  | _ :: _, [] => false
  | p :: ps, c :: cs => p == c && goHasPre ps cs

/-- Go `strings.HasSuffix(s, suf)`. -/
def goHasSuf (suf s : Str) : Bool := goHasPre suf.reverse s.reverse

/-- Go `strings.SplitN(s, sep, 2)` for a one-character separator:
returns the part before the first separator, and (when the separator
occurs) the remainder after it. -/
def splitN2 (sep : Char) (s : Str) : Str × Option Str :=
  match s with
  | [] => ([], none)
  | c :: cs =>
    if c = sep then ([], some cs)
    else
      let r := splitN2 sep cs
      (c :: r.1, r.2)

/-- Go `strings.Split(s, sep)` for a one-character separator. -/
def goSplit (sep : Char) : Str → List Str
  | [] => [[]]
  | c :: cs =>
    if c = sep then [] :: goSplit sep cs
    else
      match goSplit sep cs with
      | r :: rs => (c :: r) :: rs
      | [] => [[c]]

/-! ## Go `net/url` (external collaborator)

A model of the fragment of Go's `net/url` exercised by the channel
resolvers: URLs of the shapes `scheme://host/path` and `scheme:opaque`,
without userinfo, query, fragment or percent-escaping.  `url.Parse` and
`URL.String` are stdlib collaborators of the repository; the model below
follows their documented behaviour on this restricted grammar. -/

/-- The subset of Go's `url.URL` fields used by the channel resolvers. -/
structure GoURL where
  scheme : Str
  opq : Str
  host : Str
  path : Str
  deriving DecidableEq, Repr

/-- A character Go's `getScheme` accepts inside a scheme after the first
letter. -/
def isSchemeTailChar (c : Char) : Bool :=
  c.isAlpha || c.isDigit || c == '+' || c == '-' || c == '.'

/-- Split `s` at the first `':'` provided everything before it is a valid
scheme (first character a letter, remaining characters scheme characters);
returns `none` when `s` has no scheme part (Go then treats the whole
string as a path). -/
def schemeSplit (s : Str) : Option (Str × Str) :=
  match s with
  | [] => none
  | c :: cs =>
    if c.isAlpha then schemeSplitTail [c] cs else none
where
  schemeSplitTail (acc : Str) : Str → Option (Str × Str)
    | [] => none
    | c :: cs =>
      if c = ':' then some (acc, cs)
      else if isSchemeTailChar c then schemeSplitTail (acc ++ [c]) cs
      else none

/-- Model of Go `url.Parse` on the restricted grammar: extract the scheme;
after `scheme:` a `//` introduces `host` (up to the next `/`) followed by
the path, a leading `/` introduces a path, and anything else is opaque. -/
def parseGoURL (s : Str) : GoURL :=
  match schemeSplit s with
  | none => { scheme := [], opq := [], host := [], path := s }
  | some (sch, rest) =>
    if goHasPre ['/', '/'] rest then
      let rest2 := rest.drop 2
      { scheme := sch, opq := [], host := rest2.takeWhile (fun c => c ≠ '/'),
        path := rest2.dropWhile (fun c => c ≠ '/') }
    else if goHasPre ['/'] rest then
      { scheme := sch, opq := [], host := [], path := rest }
    else
      { scheme := sch, opq := rest, host := [], path := [] }

/-- Model of Go `url.URL.String()` for URLs with no userinfo, query,
fragment or characters needing escaping. -/
def goURLString (u : GoURL) : Str :=
  let schemePart := if u.scheme ≠ [] then u.scheme ++ [':'] else []
  if u.opq ≠ [] then
    schemePart ++ u.opq
  else
    let auth := if u.scheme ≠ [] ∨ u.host ≠ [] then ['/', '/'] ++ u.host else u.host
    let sep : Str :=
      if u.path ≠ [] ∧ u.path.head? ≠ some '/' ∧ u.host ≠ [] then ['/'] else []
    schemePart ++ auth ++ sep ++ u.path

/-- Go `path.Base`, from the standard `path` package. -/
def pathBase (p : Str) : Str :=
  if p = [] then ['.']
  else
    let p1 := p.reverse.dropWhile (fun c => c = '/')
    if p1 = [] then ['/']
    else
      let base := p1.takeWhile (fun c => c ≠ '/')
      base.reverse

/-! ## `bonito/channel.go` and `ChannelURL` (`bonito/bonito.go`) -/

/-- `ChannelInput` (channel.go): a declared channel source, a URL plus an
optional version string. -/
structure ChannelInput where
  url : Str
  version : Str
  deriving DecidableEq, Repr

instance : Inhabited ChannelInput := ⟨⟨[], []⟩⟩

/-- `ChannelURL.Parse` (bonito.go): reject URLs containing a space, then
parse. -/
def channelURLParse (u : Str) : Except String GoURL :=
  if strHasChar ' ' u then .error "url contains invalid space"
  else .ok (parseGoURL u)

/-- The keys of the `ChannelResolvers` map (channel.go). -/
def channelResolverSchemes : List Str :=
  [lit "git", lit "github", lit "gitlab", lit "gitsrht", lit "http", lit "https"]

/-- `ChannelURL.Validate` (bonito.go): no space, parseable, and the scheme
is a key of `ChannelResolvers`. -/
def channelURLValidate (u : Str) : Except String Unit :=
  if strHasChar ' ' u then .error "url contains invalid space"
  else
    let parsed := parseGoURL u
    if channelResolverSchemes.contains parsed.scheme then .ok ()
    else .error "unknown scheme"

/-- `ChannelInput.String` (channel.go): `"<url>"`, or `"<url> <version>"`
when the version is nonempty. -/
def channelInputString (i : ChannelInput) : Str :=
  if i.version ≠ [] then i.url ++ [' '] ++ i.version else i.url

/-- `(*ChannelInput).UnmarshalText` (channel.go): split on the first space
into URL and version, then validate the URL. -/
def channelInputUnmarshalText (text : Str) : Except String ChannelInput :=
  let i : ChannelInput :=
    match splitN2 ' ' text with
    | (u, none) => { url := u, version := [] }
    | (u, some v) => { url := u, version := v }
  match channelURLValidate i.url with
  | .error e => .error e
  | .ok _ => .ok i

instance {ε α : Type} [DecidableEq ε] [DecidableEq α] : DecidableEq (Except ε α) := fun
  | .error a, .error b =>
    if h : a = b then .isTrue (by rw [h])
    else .isFalse (by intro hh; cases hh; exact h rfl)
  | .error _, .ok _ => .isFalse (by intro h; cases h)
  | .ok _, .error _ => .isFalse (by intro h; cases h)
  | .ok a, .ok b =>
    if h : a = b then .isTrue (by rw [h])
    else .isFalse (by intro hh; cases hh; exact h rfl)

/-- Is an `Except` value an error? -/
def isErr {ε α : Type} (e : Except ε α) : Bool :=
  match e with
  | .error _ => true
  | .ok _ => false

/-- `ParseChannelInput` (channel.go): unmarshal the text; on failure the
function returns the zero `ChannelInput` and a `nil` error. -/
def parseChannelInput (chInput : Str) : ChannelInput × Option String :=
  match channelInputUnmarshalText chInput with
  | .error _ => (default, none)
  | .ok i => (i, none)

/-- `transGitHubURL` (channel.go): append `/archive/<version>.tar.gz` to
the path and force the `https` scheme. -/
def transGitHubURL (i : ChannelInput) (u : GoURL) : GoURL :=
  { u with path := u.path ++ lit "/archive/" ++ i.version ++ lit ".tar.gz",
           scheme := lit "https" }

/-- `transGitLabURL` (channel.go): append the GitLab archive suffix
(dash-slash-archive, the version, then `<base>-<version>.tar.gz`) to the
path and force the `https` scheme. -/
def transGitLabURL (i : ChannelInput) (u : GoURL) : GoURL :=
  { u with path := u.path ++ lit "/-/archive/" ++ i.version ++ ['/'] ++
             pathBase u.path ++ ['-'] ++ i.version ++ lit ".tar.gz",
           scheme := lit "https" }

/-- `transSourcehutURL` (channel.go). -/
def transSourcehutURL (i : ChannelInput) (u : GoURL) : GoURL :=
  { u with path := u.path ++ lit "/archive/" ++ i.version ++ lit ".tar.gz",
           scheme := lit "https" }

/-- `resolveGit` (channel.go): a `git://` URL must carry a version and a
known hosting service; the service-specific transformer produces the
archive URL. -/
def resolveGit (i : ChannelInput) : Except String Str :=
  match channelURLParse i.url with
  | .error e => .error e
  | .ok u =>
    if i.version = [] then
      .error "git used without version, use http(s) instead"
    else if u.host = lit "github.com" then
      .ok (goURLString (transGitHubURL i u))
    else if u.host = lit "gitlab.com" then
      .ok (goURLString (transGitLabURL i u))
    else if u.host = lit "git.sr.ht" then
      .ok (goURLString (transSourcehutURL i u))
    else
      .error "unknown git service, consider using https://"

/-- `resolveServiceURL` (channel.go): expand the `scheme:owner/repo`
shorthand into the service host, then apply the transformer. -/
def resolveServiceURL (i : ChannelInput) (host : Str)
    (transformer : ChannelInput → GoURL → GoURL) : Except String Str :=
  match channelURLParse i.url with
  | .error e => .error e
  | .ok u =>
    let u :=
      if u.opq ≠ [] then
        { u with host := host, path := u.opq, opq := [] }
      else u
    .ok (goURLString (transformer i u))

/-- `resolveGitHub` (channel.go). -/
def resolveGitHub (i : ChannelInput) : Except String Str :=
  resolveServiceURL i (lit "github.com") transGitHubURL

/-- `resolveGitLab` (channel.go). -/
def resolveGitLab (i : ChannelInput) : Except String Str :=
  resolveServiceURL i (lit "gitlab.com") transGitLabURL

/-- `resolveSourcehut` (channel.go). -/
def resolveSourcehut (i : ChannelInput) : Except String Str :=
  resolveServiceURL i (lit "git.sr.ht") transSourcehutURL

/-- `useSameURL` (channel.go): http/https URLs resolve to themselves. -/
def useSameURL (i : ChannelInput) : Except String Str :=
  .ok i.url

/-- The `ChannelResolvers` dispatch table (channel.go). -/
def channelResolvers : List (Str × (ChannelInput → Except String Str)) :=
  [ (lit "git", resolveGit),
    (lit "github", resolveGitHub),
    (lit "gitlab", resolveGitLab),
    (lit "gitsrht", resolveSourcehut),
    (lit "http", useSameURL),
    (lit "https", useSameURL) ]

/-- Association-list lookup (the model of a Go map read). -/
def lookupA {α β : Type} [DecidableEq α] (l : List (α × β)) (k : α) : Option β :=
  match l with
  | [] => none
  | (k', v) :: rest => if k' = k then some v else lookupA rest k

/-- `ChannelInput.Resolve` (channel.go): parse the URL and dispatch on its
scheme through `ChannelResolvers`. -/
def channelInputResolve (i : ChannelInput) : Except String Str :=
  match channelURLParse i.url with
  | .error e => .error e
  | .ok u =>
    match lookupA channelResolvers u.scheme with
    | none => .error "cannot resolve unknown scheme"
    | some resolve => resolve i

example :
    channelInputResolve ⟨lit "https://github.com/NixOS/nixpkgs/archive/1ffba9f.tar.gz", []⟩ =
      .ok (lit "https://github.com/NixOS/nixpkgs/archive/1ffba9f.tar.gz") := by decide

example :
    channelInputResolve ⟨lit "git://github.com/NixOS/nixpkgs", lit "1ffba9f"⟩ =
      .ok (lit "https://github.com/NixOS/nixpkgs/archive/1ffba9f.tar.gz") := by decide

example :
    channelInputResolve ⟨lit "github:NixOS/nixpkgs", lit "1ffba9f"⟩ =
      .ok (lit "https://github.com/NixOS/nixpkgs/archive/1ffba9f.tar.gz") := by decide

example :
    channelInputResolve ⟨lit "git://gitlab.com/diamondburned/dotfiles", lit "a9bb5c0"⟩ =
      .ok (lit "https://gitlab.com/diamondburned/dotfiles/-/archive/a9bb5c0/dotfiles-a9bb5c0.tar.gz") := by
  decide

example :
    channelInputResolve ⟨lit "gitlab:diamondburned/dotfiles", lit "a9bb5c0"⟩ =
      .ok (lit "https://gitlab.com/diamondburned/dotfiles/-/archive/a9bb5c0/dotfiles-a9bb5c0.tar.gz") := by
  decide

/-! ## `bonito/internal/gitutil/gitutil.go` -/

/-- `isValidCommitHash` (gitutil.go): between 4 and 40 characters, and the
even-length prefix must be hexadecimal (`hex.DecodeString` on the length
rounded down to a multiple of two). -/
def isValidCommitHash (hash : Str) : Bool :=
  if hash.length < 4 || hash.length > 40 then false
  else
    let l := hash.length - hash.length % 2
    (hash.take l).all (fun c => c.isDigit || ('a' ≤ c ∧ c ≤ 'f') || ('A' ≤ c ∧ c ≤ 'F'))

/-- `gitReference` (gitutil.go). -/
structure GitReference where
  commit : Str
  ref : Str
  deriving DecidableEq, Repr

/-- `splitLsRemote` (gitutil.go): split the `git ls-remote` output into
lines, cut each line at the first tab into commit and ref, skip lines
without a tab, and skip tag refs that are not dereferenced (`^\x7b\x7d`
suffix missing). -/
def splitLsRemote (out : Str) : List GitReference :=
  (goSplit '\n' out).filterMap fun line =>
    match splitN2 '\t' line with
    | (_, none) => none
    | (commit, some ref) =>
      if goHasPre (lit "refs/tags/") ref && !goHasSuf ['^', '{', '}'] ref then
        none
      else
        some { commit := commit, ref := ref }

/-- `RefCommit` (gitutil.go), with the subprocess call abstracted: `lsOut`
is the text the `git ls-remote --sort=v:refname` invocation prints (the
remote's references in version-aware ascending sort order; when the
selector is a glob the listing is already restricted to it).  A selector
that is a 40-character hex string is returned as-is without consulting
`lsOut`; a glob selector not starting with `refs/` is rewritten to
`refs/heads/<selector>` before matching. -/
def refCommit (lsOut : Str) (ref : Str) : Except String Str :=
  if ref.length = 40 ∧ isValidCommitHash ref then
    .ok ref
  else
    let ref :=
      if goHasSuf ['*'] ref ∧ ¬goHasPre (lit "refs/") ref then
        lit "refs/heads/" ++ ref
      else ref
    let refs := splitLsRemote lsOut
    let refs :=
      if goHasSuf ['*'] ref then
        refs.filter (fun r => goHasPre (ref.dropLast) r.ref)
      else refs
    if h : refs = [] then
      if isValidCommitHash ref then .ok ref
      else .error "ref not found"
    else
      .ok (refs.getLast h).commit

/-! ## `bonito/internal/nixutil/storepath.go` and the `nixbase32` codec

The hash codec is the `go-nix` `nixbase32` package, an external
collaborator; its `Decode` loop is reproduced bit-for-bit below (bytes as
`Nat` with explicit truncation mod 256). -/

/-- The nixbase32 alphabet (digits and lowercase letters without
`e`, `o`, `u`, `t`). -/
def nixbase32Alphabet : Str := lit "0123456789abcdfghijklmnpqrsvwxyz"

/-- Bitwise-or the byte at index `i` with `v`. -/
def orAt (l : List Nat) (i v : Nat) : List Nat :=
  l.set i ((l.getD i 0) ||| v)

/-- The `go-nix` `nixbase32.Decode` loop: process source characters from
the end, look each up in the alphabet, and pack five bits per character
into the destination bytes; an unknown character or a nonzero carry out
of the last byte is an error (`none`). -/
def nixbase32Decode (s : Str) : Option (List Nat) :=
  let len := s.length
  let dstLen := len * 5 / 8
  (List.range len).foldl
    (fun acc n =>
      match acc with
      | none => none
      | some dst =>
        let c := s.getD (len - 1 - n) ' '
        match nixbase32Alphabet.findIdx? (fun a => a = c) with
        | none => none
        | some digit =>
          let b := n * 5
          let i := b / 8
          let j := b % 8
          let dst := orAt dst i ((digit <<< j) % 256)
          let carry := digit >>> (8 - j)
          if i + 1 < dstLen then some (orAt dst (i + 1) carry)
          else if carry ≠ 0 then none
          else some dst)
    (some (List.replicate dstLen 0))

/-- `StorePath` (storepath.go): root directory, name and hash of a Nix
store entry. -/
structure StorePath where
  root : Str
  name : Str
  hash : Str
  deriving DecidableEq, Repr

/-- The error cases of `ParseStorePath` (storepath.go). -/
inductive StorePathErr where
  | invalidPath
  | invalidName (name : Str)
  | invalidHash (hash : Str)
  deriving DecidableEq, Repr

/-- Model of Go `path/filepath.Rel` (stdlib collaborator), restricted to
already-clean slash-separated paths: the result is `.` when the paths are
equal and the suffix after `base/` when `base` is an ancestor of `targ`.
(The real function otherwise returns a `..`-chained path or an error; in
`ParseStorePath` such a result always fails the subsequent store-name
check, and the model takes the error branch directly.) -/
def goFilepathRel (base targ : Str) : Except String Str :=
  if targ = base then .ok ['.']
  else if goHasPre (base ++ ['/']) targ then .ok (targ.drop (base.length + 1))
  else .error "cannot make target relative to base"

/-- `ParseStorePath` (storepath.go): an empty root means `/nix/store`;
take the path relative to the root, keep only the first path segment,
split it at the first `-` into hash and name, and require the hash to
decode as nixbase32. -/
def parseStorePath (root path : Str) : Except StorePathErr StorePath :=
  let root := if root = [] then lit "/nix/store" else root
  match goFilepathRel root path with
  | .error _ => .error .invalidPath
  | .ok rel =>
    let name :=
      match goSplit '/' rel with
      | n :: _ :: _ => n
      | _ => rel
    match splitN2 '-' name with
    | (_, none) => .error (.invalidName name)
    | (hashPart, some namePart) =>
      match nixbase32Decode hashPart with
      | none => .error (.invalidHash hashPart)
      | some _ => .ok { root := root, name := namePart, hash := hashPart }

example :
    parseStorePath (lit "/nix/store")
        (lit "/nix/store/4ch3bm9bx98jf68ri8jmx00k479mv8g6-nixos/nixos") =
      .ok { root := lit "/nix/store", name := lit "nixos",
            hash := lit "4ch3bm9bx98jf68ri8jmx00k479mv8g6" } := by decide

/-! ## `bonito/lock.go`: locks and the reconcile cycle -/

/-- `ChannelLock` (lock.go): the resolved URL and the measured store
hash of one channel. -/
structure ChannelLock where
  url : Str
  storeHash : Str
  deriving DecidableEq, Repr

/-- `LockFile.Channels`: a map from inputs to locks, as an association
list in one concrete iteration order. -/
abbrev LockAssoc := List (ChannelInput × ChannelLock)

/-- Association-list insert-or-replace (the model of a Go map write). -/
def upsertA {α β : Type} [DecidableEq α] (l : List (α × β)) (k : α) (v : β) :
    List (α × β) :=
  match l with
  | [] => [(k, v)]
  | (k', v') :: rest => if k' = k then (k, v) :: rest else (k', v') :: upsertA rest k v

/-- `ChannelLock.HashChanged` (lock.go): same URL but a different store
hash. -/
def hashChanged (l newer : ChannelLock) : Bool :=
  l.url == newer.url && l.storeHash != newer.storeHash

/-- The `updateFlag` constants of bonito.go (`noUpdate`, `updateLocks`,
`updateInputs`). -/
inductive UpdateFlag where
  | noUpdate
  | updateLocks
  | updateInputs
  deriving DecidableEq, Repr

/-- The integer value of an `updateFlag`. -/
def UpdateFlag.toNat : UpdateFlag → Nat
  | .noUpdate => 0
  | .updateLocks => 1
  | .updateInputs => 2

/-- `updateFlag.is` (bonito.go): `f >= other`. -/
def UpdateFlag.is (f other : UpdateFlag) : Bool := other.toNat ≤ f.toNat

/-- `resolveInputs` (lock.go): resolve the URL of each input; any failure
aborts the whole batch (the Go code fans out through an errgroup whose
`Wait` returns the first error; the association list records the results
in one concrete order). -/
def resolveInputs (resolve : ChannelInput → Except String Str) :
    List ChannelInput → Except String (List (ChannelInput × Str))
  | [] => .ok []
  | i :: is =>
    match resolve i with
    | .error e => .error e
    | .ok url =>
      match resolveInputs resolve is with
      | .error e => .error e
      | .ok rest => .ok ((i, url) :: rest)

/-- The missing-lock scan of `(*State).applyGlobal` (bonito.go
lines 408-420), verbatim: starting from the freshly created empty
`inputURLs` map, each declared input is looked up in that same map
(`lock, ok := inputURLs[input]`); a hit is copied back into the map and
a miss is appended to `missingInputs`. -/
def missingSplit (channelInputs : List ChannelInput) :
    List (ChannelInput × Str) × List ChannelInput :=
  channelInputs.foldl
    (fun acc input =>
      match lookupA acc.1 input with
      | some l => (upsertA acc.1 input l, acc.2)
      | none => (acc.1, acc.2 ++ [input]))
    ([], [])

/-- The working-URL-set step of `(*State).applyGlobal` (bonito.go
lines 399-430): when the mode reaches `updateInputs` every declared
input is resolved; otherwise the inputs reported missing by
`missingSplit` are resolved and merged over the scan's map.  Returns the
working URL map together with the list of inputs that were actually sent
to URL resolution. -/
def computeWorkingURLs (update : UpdateFlag) (lockChannels : LockAssoc)
    (channelInputs : List ChannelInput)
    (resolve : ChannelInput → Except String Str) :
    Except String (List (ChannelInput × Str) × List ChannelInput) :=
  if update.is .updateInputs then
    match resolveInputs resolve channelInputs with
    | .error e => .error e
    | .ok urls => .ok (urls, channelInputs)
  else
    let split := missingSplit channelInputs
    match resolveInputs resolve split.2 with
    | .error e => .error e
    | .ok newURLs =>
      .ok (newURLs.foldl (fun m p => upsertA m p.1 p.2) split.1, split.2)

/-- The lock-merge loop of `(*State).applyGlobal` (bonito.go
lines 437-447): for each measured lock, if the input was already locked
and the hash changed, fail unless the mode reaches `updateLocks`;
otherwise store the new lock. -/
def mergeLocks (update : UpdateFlag) (lockChannels : LockAssoc) :
    List (ChannelInput × ChannelLock) → Except String LockAssoc
  | [] => .ok lockChannels
  | (input, lock) :: rest =>
    match lookupA lockChannels input with
    | some oldLock =>
      if hashChanged oldLock lock ∧ ¬update.is .updateLocks then
        .error "channel has a different store hash (try --update-locks)"
      else
        mergeLocks update (upsertA lockChannels input lock) rest
    | none => mergeLocks update (upsertA lockChannels input lock) rest

/-! ## The external `nix-channel` gateway

The live channel namespace is a `World` of name/url entries; the
`channelExecer` subcommands become pure state transformers, and a
`GatewayOracle` decides which subprocess invocations succeed (a failed
invocation leaves the namespace unchanged). -/

/-- The live `nix-channel` namespace: an ordered list of (name, url)
entries with distinct names. -/
structure World where
  entries : List (Str × Str)
  deriving DecidableEq, Repr

/-- `nix-channel --add name url`: overwrites the entry when the name
already exists. -/
def chanAdd (w : World) (name url : Str) : World :=
  ⟨upsertA w.entries name url⟩

/-- `nix-channel --remove name`. -/
def chanRemove (w : World) (name : Str) : World :=
  ⟨w.entries.filter (fun e => e.1 ≠ name)⟩

/-- `channelExecer.list()` as a lookup function. -/
def chanLookup (w : World) (name : Str) : Option Str :=
  lookupA w.entries name

/-- The temporary-namespace name prefix of `newChannelExecer(ctx, true)`
(channel.go): `bonito-tmp-`. -/
def tmpPre : Str := lit "bonito-tmp-"

/-- Modelled from the spec (§4.3): `channelExecer.removeAll`, whose body
is not among the provided sources (only its caller `removeTmpChannels` in
lock.go is).  It enumerates the current entries and removes every one
matching the gateway's prefix. -/
def removeAllTmp (w : World) : World :=
  ⟨w.entries.filter (fun e => ¬goHasPre tmpPre e.1)⟩

/-- Which gateway subprocess invocations succeed. -/
structure GatewayOracle where
  addOK : Str → Str → Bool
  removeOK : Str → Bool
  updateOK : Bool

/-- The oracle under which every gateway invocation succeeds. -/
def okGateway : GatewayOracle :=
  { addOK := fun _ _ => true, removeOK := fun _ => true, updateOK := true }

/-! ## `resolveChannelLocks` and `applyGlobal` -/

/-- The add loop of `resolveChannelLocks` (lock.go lines 195-205): for
each (input, url), derive the temporary name `shortHash(url) + "-" +
path.Base(input.URL)`, add it under the temporary prefix, and record the
assigned name.  `shortHashF` abstracts `shortHash` (lock.go), a
sha256/base64 digest computed by the Go standard library. -/
def rclAddLoop (g : GatewayOracle) (shortHashF : Str → Str) :
    List (ChannelInput × Str) → World →
      Except String (List (Str × ChannelInput) × World)
  | [], w => .ok ([], w)
  | (input, url) :: rest, w =>
    let tempName := shortHashF url ++ ['-'] ++ pathBase input.url
    let chName := tmpPre ++ tempName
    if g.addOK chName url then
      match rclAddLoop g shortHashF rest (chanAdd w chName url) with
      | .error e => .error e
      | .ok (chs, w') => .ok ((chName, input) :: chs, w')
    else .error "cannot add channel"

/-- The measure loop of `resolveChannelLocks` (lock.go lines 211-226):
for each assigned temporary name, read the channel's source path
(`nixutil.ChannelSourcePath`, a `readlink` subprocess abstracted as
`chSrc`), parse it as a store path under `storeDir`, and lock the input
to its URL and measured hash. -/
def rclMeasureLoop (storeDir : Str) (chSrc : Str → Str)
    (inputURLs : List (ChannelInput × Str)) :
    List (Str × ChannelInput) → Except String (List (ChannelInput × ChannelLock))
  | [] => .ok []
  | (name, input) :: rest =>
    match parseStorePath storeDir (chSrc name) with
    | .error _ => .error "invalid store path for channel"
    | .ok sp =>
      match rclMeasureLoop storeDir chSrc inputURLs rest with
      | .error e => .error e
      | .ok locks =>
        .ok ((input, { url := (lookupA inputURLs input).getD [],
                       storeHash := sp.hash }) :: locks)

/-- `resolveChannelLocks` (lock.go lines 184-229): nothing to do for an
empty URL map; otherwise add all temporary entries, issue one batched
update, then measure every entry's store hash. -/
def resolveChannelLocksM (g : GatewayOracle) (shortHashF : Str → Str)
    (storeDir : Str) (chSrc : Str → Str)
    (inputURLs : List (ChannelInput × Str)) (w : World) :
    Except String (List (ChannelInput × ChannelLock) × World) :=
  if inputURLs = [] then .ok ([], w)
  else
    match rclAddLoop g shortHashF inputURLs w with
    | .error e => .error e
    | .ok (chs, w') =>
      if g.updateOK then
        match rclMeasureLoop storeDir chSrc inputURLs chs with
        | .error e => .error e
        | .ok locks => .ok (locks, w')
      else .error "cannot update channels"

/-- `(*State).applyGlobal` (bonito.go lines 374-450): clean the temporary
namespace, determine the working URL set, fetch-and-measure through the
temporary namespace, and merge the measured locks into the lock file.
The preferred-user selection and subprocess identity plumbing are outside
the model. -/
def applyGlobal (update : UpdateFlag) (lockChannels : LockAssoc)
    (channelInputs : List ChannelInput)
    (resolve : ChannelInput → Except String Str) (g : GatewayOracle)
    (shortHashF : Str → Str) (storeDir : Str) (chSrc : Str → Str)
    (w : World) : Except String (LockAssoc × World) :=
  let w := removeAllTmp w
  match computeWorkingURLs update lockChannels channelInputs resolve with
  | .error e => .error e
  | .ok (inputURLs, _) =>
    match resolveChannelLocksM g shortHashF storeDir chSrc inputURLs w with
    | .error e => .error e
    | .ok (locks, w') =>
      match mergeLocks update lockChannels locks with
      | .error e => .error e
      | .ok merged => .ok (merged, w')

/-! ## `config.go`: registries, and `(*State).applyUser` -/

/-- `ChannelRegistry` (config.go): named channel inputs plus aliases, as
association lists in one concrete iteration order. -/
structure ChannelRegistry where
  channels : List (Str × ChannelInput)
  aliases : List (Str × Str)
  deriving Repr

/-- `UserConfig` (config.go). -/
structure UserConfig where
  useSudo : Bool
  overrideChannels : Bool
  registry : ChannelRegistry

/-- The alias-resolution pass of `CombineChannelRegistries` (config.go):
each alias must name a channel already present in the combined map. -/
def combineAliases (acc : List (Str × ChannelInput)) :
    List (Str × Str) → Except String (List (Str × ChannelInput))
  | [] => .ok acc
  | (name, aliased) :: rest =>
    match lookupA acc aliased with
    | none => .error "unknown channel alias"
    | some input => combineAliases (upsertA acc name input) rest

/-- `CombineChannelRegistries` (config.go): merge the registries in
order (later entries override earlier ones), resolving each registry's
aliases as it is merged. -/
def combineChannelRegistries (rs : List ChannelRegistry) :
    Except String (List (Str × ChannelInput)) :=
  go [] rs
where
  go (acc : List (Str × ChannelInput)) :
      List ChannelRegistry → Except String (List (Str × ChannelInput))
    | [] => .ok acc
    | r :: rest =>
      let acc := r.channels.foldl (fun a p => upsertA a p.1 p.2) acc
      match combineAliases acc r.aliases with
      | .error e => .error e
      | .ok acc => go acc rest

/-- The failure cases of `(*State).applyUser` (bonito.go). -/
inductive ApplyErr where
  | removeFailed
  | combineFailed
  | noLock (name : Str)
  | addFailed (name : Str)
  | updateFailed
  deriving DecidableEq, Repr

/-- The outcome of `(*State).applyUser`: the returned error, if any, and
the final live namespace. -/
structure ApplyOut where
  err : Option ApplyErr
  world : World
  deriving DecidableEq, Repr

/-- The `rollback` closure of `(*State).applyUser` (bonito.go
lines 465-474): remove every name of the user's own `Channels` map, then
re-add every (name, url) pair of the pre-apply snapshot `oldList`;
gateway errors during rollback are discarded (a failed invocation leaves
the namespace unchanged). -/
def applyUserRollback (g : GatewayOracle) (userChannels : List (Str × ChannelInput))
    (oldList : List (Str × Str)) (w : World) : World :=
  let w := userChannels.foldl
    (fun w p => if g.removeOK p.1 then chanRemove w p.1 else w) w
  oldList.foldl
    (fun w p => if g.addOK p.1 p.2 then chanAdd w p.1 p.2 else w) w

/-- The `overrideChannels` prune loop of `(*State).applyUser` (bonito.go
lines 476-490): remove every pre-existing entry not declared by the user;
a gateway failure stops the loop (`false`). -/
def applyUserPrune (g : GatewayOracle) (userChannels : List (Str × ChannelInput)) :
    List (Str × Str) → World → Bool × World
  | [], w => (true, w)
  | (name, _) :: rest, w =>
    if (lookupA userChannels name).isSome then
      applyUserPrune g userChannels rest w
    else if g.removeOK name then
      applyUserPrune g userChannels rest (chanRemove w name)
    else (false, w)

/-- The result of the add loop of `(*State).applyUser`. -/
inductive AddLoopRes where
  | ok (w : World)
  | noLock (name : Str) (w : World)
  | failed (name : Str) (w : World)
  deriving DecidableEq, Repr

/-- The add loop of `(*State).applyUser` (bonito.go lines 502-516): for
each combined (name, input), the input must have a lock (else the loop
stops with `noLock`), and the locked URL is added under the name (a
gateway failure stops the loop with `failed`). -/
def applyUserAddLoop (g : GatewayOracle) (lockChannels : LockAssoc) :
    List (Str × ChannelInput) → World → AddLoopRes
  | [], w => .ok w
  | (name, input) :: rest, w =>
    match lookupA lockChannels input with
    | none => .noLock name w
    | some lock =>
      if g.addOK name lock.url then
        applyUserAddLoop g lockChannels rest (chanAdd w name lock.url)
      else .failed name w

/-- `(*State).applyUser` (bonito.go lines 452-529): snapshot the live
list, optionally prune undeclared entries, combine the global and user
registries, add every combined name under its locked URL, and issue one
update; prune, add and update failures trigger the rollback closure,
while a combine failure or a missing lock returns without rollback. -/
def applyUser (g : GatewayOracle) (globalReg : ChannelRegistry)
    (usercfg : UserConfig) (lockChannels : LockAssoc) (w : World) : ApplyOut :=
  let oldList := w.entries
  let userChannels := usercfg.registry.channels
  let prune :=
    if usercfg.overrideChannels then applyUserPrune g userChannels oldList w
    else (true, w)
  if ¬prune.1 then
    { err := some .removeFailed,
      world := applyUserRollback g userChannels oldList prune.2 }
  else
    match combineChannelRegistries [globalReg, usercfg.registry] with
    | .error _ => { err := some .combineFailed, world := prune.2 }
    | .ok channelInputs =>
      match applyUserAddLoop g lockChannels channelInputs prune.2 with
      | .noLock name w' => { err := some (.noLock name), world := w' }
      | .failed name w' =>
        { err := some (.addFailed name),
          world := applyUserRollback g userChannels oldList w' }
      | .ok w' =>
        if g.updateOK then { err := none, world := w' }
        else
          { err := some .updateFailed,
            world := applyUserRollback g userChannels oldList w' }

/-- A concrete `git ls-remote --sort=v:refname` listing used to probe
`refCommit`: three branch heads in sort order. -/
def c5LsOut : Str :=
  lit "c1\trefs/heads/dev\nc2\trefs/heads/main\nc3\trefs/heads/zzz"

/-! ## Shared lemmas about the list-level models -/

theorem lookupA_upsertA {α β : Type} [DecidableEq α] (l : List (α × β)) (k : α)
    (v : β) (k' : α) :
    lookupA (upsertA l k v) k' = if k = k' then some v else lookupA l k' := by
  induction l with
  | nil => simp [upsertA, lookupA]
  | cons p rest ih =>
    obtain ⟨a, b⟩ := p
    by_cases hak : a = k
    · subst hak
      by_cases hk' : a = k' <;> simp [upsertA, lookupA, hk']
    · by_cases hk' : a = k'
      · subst hk'
        have : ¬k = a := fun h => hak h.symm
        simp [upsertA, lookupA, hak, this]
      · simp [upsertA, lookupA, hak, hk', ih]

theorem upsertA_append_of_absent {α β : Type} [DecidableEq α] (l : List (α × β))
    (k : α) (v : β) (h : ∀ p ∈ l, p.1 ≠ k) : upsertA l k v = l ++ [(k, v)] := by
  induction l with
  | nil => simp [upsertA]
  | cons p rest ih =>
    obtain ⟨a, b⟩ := p
    have ha : a ≠ k := h (a, b) (by simp)
    simp only [upsertA, ha, if_false]
    rw [ih (fun q hq => h q (by simp [hq]))]
    simp

theorem lookupA_append_right {α β : Type} [DecidableEq α] (l₁ l₂ : List (α × β))
    (k : α) (h : ∀ p ∈ l₁, p.1 ≠ k) :
    lookupA (l₁ ++ l₂) k = lookupA l₂ k := by
  induction l₁ with
  | nil => simp
  | cons p rest ih =>
    obtain ⟨a, b⟩ := p
    have ha : a ≠ k := h (a, b) (by simp)
    simp only [List.cons_append, lookupA, ha, if_false]
    exact ih (fun q hq => h q (by simp [hq]))

theorem goHasPre_append_self (a b : Str) : goHasPre a (a ++ b) = true := by
  induction a with
  | nil => simp [goHasPre]
  | cons c cs ih => simp [goHasPre, ih]

theorem chanLookup_add (w : World) (a u : Str) (n : Str) :
    chanLookup (chanAdd w a u) n = if a = n then some u else chanLookup w n := by
  simp [chanLookup, chanAdd, lookupA_upsertA]

theorem chanLookup_remove (w : World) (a : Str) (n : Str) :
    chanLookup (chanRemove w a) n = if n = a then none else chanLookup w n := by
  obtain ⟨l⟩ := w
  show lookupA (l.filter (fun e => e.1 ≠ a)) n = if n = a then none else lookupA l n
  induction l with
  | nil => by_cases h : n = a <;> simp [lookupA, h]
  | cons p rest ih =>
    obtain ⟨x, y⟩ := p
    rw [List.filter_cons]
    by_cases hxa : x = a
    · have hd : (decide ¬((x, y).1 = a)) = false := by simp [hxa]
      rw [hd]
      simp only [Bool.false_eq_true, if_false]
      rw [ih]
      by_cases hna : n = a
      · simp [hna]
      · have hxn : ¬x = n := fun h => hna (h ▸ hxa)
        simp [hna, lookupA, hxn]
    · have hd : (decide ¬((x, y).1 = a)) = true := by simp [hxa]
      rw [hd]
      simp only [if_true]
      by_cases hxn : x = n
      · subst hxn
        have hna : ¬x = a := hxa
        simp [lookupA, hna]
      · simp only [lookupA, hxn, if_false]
        rw [ih]

/-! ## The claims -/

/-- Claim C10: for every input string whose channel URL fails validation
(unknown scheme, unparsable URL, or a URL containing a space),
`ParseChannelInput` returns the zero `ChannelInput` together with a nil
error; the validation failure is never propagated to the caller. -/
theorem c10_parseChannelInput_swallows_failure :
    (∀ s : Str, isErr (channelInputUnmarshalText s) = true →
      parseChannelInput s = ({ url := [], version := [] }, none)) ∧
    (∀ s : Str, (parseChannelInput s).2 = none) := by
  constructor
  · intro s h
    unfold parseChannelInput
    cases he : channelInputUnmarshalText s with
    | error e => rfl
    | ok i => rw [he] at h; simp [isErr] at h
  · intro s
    unfold parseChannelInput
    cases channelInputUnmarshalText s <;> rfl

theorem c10_witness :
    isErr (channelInputUnmarshalText (lit "ftp://example.com/x")) = true ∧
    parseChannelInput (lit "ftp://example.com/x") =
      ({ url := [], version := [] }, none) :=
  ⟨by decide,
   c10_parseChannelInput_swallows_failure.1 (lit "ftp://example.com/x") (by decide)⟩

/-- The missing-lock scan never finds anything: it consults the freshly
created empty map, so every declared input comes out "missing". -/
theorem missingSplit_eq (channelInputs : List ChannelInput) :
    missingSplit channelInputs = ([], channelInputs) := by
  have aux : ∀ (ins acc2 : List ChannelInput),
      ins.foldl
        (fun (acc : List (ChannelInput × Str) × List ChannelInput) input =>
          match lookupA acc.1 input with
          | some l => (upsertA acc.1 input l, acc.2)
          | none => (acc.1, acc.2 ++ [input]))
        ([], acc2) = ([], acc2 ++ ins) := by
    intro ins
    induction ins with
    | nil => intro acc2; simp
    | cons i is ih =>
      intro acc2
      simp only [List.foldl_cons, lookupA]
      rw [ih]
      simp
  simpa using aux channelInputs []

/-- Claim C1 (code bug): in a mode below `updateInputs` (the locks-only
path of `applyGlobal`), every declared input is sent to URL resolution —
the inputs present in the existing lock are not exempted and their locked
URLs are never reused, because the missing-check reads the freshly
created `inputURLs` map instead of the lock.  The whole computation is
independent of the existing lock. -/
theorem c1_locksOnly_reresolves_every_input :
    (∀ (lockChannels : LockAssoc) (channelInputs : List ChannelInput)
        (resolve : ChannelInput → Except String Str)
        (r : List (ChannelInput × Str) × List ChannelInput),
      computeWorkingURLs .noUpdate lockChannels channelInputs resolve = .ok r →
        r.2 = channelInputs) ∧
    (∀ (lock₁ lock₂ : LockAssoc) (channelInputs : List ChannelInput)
        (resolve : ChannelInput → Except String Str),
      computeWorkingURLs .noUpdate lock₁ channelInputs resolve =
        computeWorkingURLs .noUpdate lock₂ channelInputs resolve) := by
  constructor
  · intro lockChannels channelInputs resolve r h
    unfold computeWorkingURLs at h
    rw [show (UpdateFlag.noUpdate.is .updateInputs) = false from rfl] at h
    simp only [Bool.false_eq_true, if_false, missingSplit_eq] at h
    cases hr : resolveInputs resolve channelInputs with
    | error e => rw [hr] at h; cases h
    | ok newURLs =>
      rw [hr] at h
      cases h
      rfl
  · intro lock₁ lock₂ channelInputs resolve
    rfl

theorem c1_witness :
    computeWorkingURLs .noUpdate
        [(⟨lit "https://a", []⟩, ⟨lit "https://a", lit "h"⟩)]
        [⟨lit "https://a", []⟩] (fun i => .ok i.url) =
      .ok ([(⟨lit "https://a", []⟩, lit "https://a")], [⟨lit "https://a", []⟩]) ∧
    (([(⟨lit "https://a", []⟩, lit "https://a")], [⟨lit "https://a", []⟩]) :
        List (ChannelInput × Str) × List ChannelInput).2 =
      [⟨lit "https://a", []⟩] := by
  refine ⟨by decide, ?_⟩
  exact c1_locksOnly_reresolves_every_input.1
    [(⟨lit "https://a", []⟩, ⟨lit "https://a", lit "h"⟩)]
    [⟨lit "https://a", []⟩] (fun i => .ok i.url)
    ([(⟨lit "https://a", []⟩, lit "https://a")], [⟨lit "https://a", []⟩])
    (by decide)

/-- Claim C5 (code bug): for a selector that is not a glob and not a
40-character hex string, `RefCommit` returns the commit of the *last*
reference of the entire listing, without ever matching the selector
against the references: with selector `main` it returns `c3` (the commit
of `refs/heads/zzz`) although the listing's matching reference
`refs/heads/main` has commit `c2`, and with a selector matching nothing
it still returns `c3` instead of a "ref not found" error. -/
theorem c5_refCommit_ignores_exact_selector :
    refCommit c5LsOut (lit "main") = .ok (lit "c3") ∧
    (splitLsRemote c5LsOut).filter (fun r => r.ref = lit "refs/heads/main") =
      [{ commit := lit "c2", ref := lit "refs/heads/main" }] ∧
    refCommit c5LsOut (lit "nosuchbranch") = .ok (lit "c3") := by
  refine ⟨by decide, by decide, by decide⟩

/-- Claim C4: when an input was already locked and the measured lock has
the same URL but a different store hash, the merge step fails in the
default (locks-only) mode with the explicit-update error, and under a
mode that permits overwriting (`updateLocks` or stricter) it succeeds and
overwrites the entry with the new lock. -/
theorem c4_hash_change_requires_update_decision
    (lockChannels : LockAssoc) (input : ChannelInput)
    (oldLock newLock : ChannelLock)
    (hold : lookupA lockChannels input = some oldLock)
    (hurl : oldLock.url = newLock.url)
    (hhash : oldLock.storeHash ≠ newLock.storeHash) :
    mergeLocks .noUpdate lockChannels [(input, newLock)] =
      .error "channel has a different store hash (try --update-locks)" ∧
    ∀ mode : UpdateFlag, mode.is .updateLocks = true →
      mergeLocks mode lockChannels [(input, newLock)] =
        .ok (upsertA lockChannels input newLock) ∧
      lookupA (upsertA lockChannels input newLock) input = some newLock := by
  have hch : hashChanged oldLock newLock = true := by
    simp [hashChanged, hurl, bne_iff_ne, hhash]
  constructor
  · simp only [mergeLocks]
    rw [hold]
    simp [hch, show UpdateFlag.noUpdate.is .updateLocks = false from rfl]
  · intro mode hm
    refine ⟨?_, ?_⟩
    · simp only [mergeLocks]
      rw [hold]
      simp [hch, hm, mergeLocks]
    · rw [lookupA_upsertA]
      simp

theorem c4_witness :
    mergeLocks .noUpdate [(⟨lit "https://a", []⟩, ⟨lit "u", lit "h1"⟩)]
        [(⟨lit "https://a", []⟩, ⟨lit "u", lit "h2"⟩)] =
      .error "channel has a different store hash (try --update-locks)" ∧
    mergeLocks .updateLocks [(⟨lit "https://a", []⟩, ⟨lit "u", lit "h1"⟩)]
        [(⟨lit "https://a", []⟩, ⟨lit "u", lit "h2"⟩)] =
      .ok [(⟨lit "https://a", []⟩, ⟨lit "u", lit "h2"⟩)] := by
  have h := c4_hash_change_requires_update_decision
    [(⟨lit "https://a", []⟩, ⟨lit "u", lit "h1"⟩)] ⟨lit "https://a", []⟩
    ⟨lit "u", lit "h1"⟩ ⟨lit "u", lit "h2"⟩ (by decide) (by decide) (by decide)
  refine ⟨h.1, ?_⟩
  have h2 := (h.2 .updateLocks (by decide)).1
  rw [h2]
  decide

theorem splitN2_no_sep {sep : Char} {s : Str} (h : strHasChar sep s = false) :
    splitN2 sep s = (s, none) := by
  induction s with
  | nil => rfl
  | cons c cs ih =>
    simp only [strHasChar, List.contains_cons, Bool.or_eq_false_iff,
      beq_eq_false_iff_ne, ne_eq] at h
    have hcs : strHasChar sep cs = false := h.2
    simp only [splitN2]
    rw [if_neg (fun hh => h.1 hh.symm), ih hcs]

theorem splitN2_append {sep : Char} {a : Str} (b : Str)
    (h : strHasChar sep a = false) : splitN2 sep (a ++ sep :: b) = (a, some b) := by
  induction a with
  | nil => simp [splitN2]
  | cons c cs ih =>
    simp only [strHasChar, List.contains_cons, Bool.or_eq_false_iff,
      beq_eq_false_iff_ne, ne_eq] at h
    simp only [List.cons_append, splitN2]
    rw [if_neg (fun hh => h.1 hh.symm)]
    simp only [List.append_eq]
    rw [ih h.2]

/-- Claim C8: for every valid `ChannelInput` (a URL passing validation —
allow-listed scheme and no space — and any version string), parsing the
text produced by formatting the input yields the same `ChannelInput`;
the formatted text is the URL alone for an empty version and
`"<url> <version>"` otherwise. -/
theorem c8_channelInput_text_roundtrip (url version : Str)
    (hv : channelURLValidate url = .ok ()) :
    channelInputUnmarshalText (channelInputString ⟨url, version⟩) =
      .ok ⟨url, version⟩ ∧
    channelInputString ⟨url, version⟩ =
      (if version ≠ [] then url ++ [' '] ++ version else url) := by
  have hns : strHasChar ' ' url = false := by
    by_cases h : strHasChar ' ' url = true
    · unfold channelURLValidate at hv
      rw [h] at hv
      cases hv
    · simpa using h
  refine ⟨?_, rfl⟩
  unfold channelInputString
  by_cases hvz : version = []
  · subst hvz
    simp only [ne_eq, not_true_eq_false, if_false]
    unfold channelInputUnmarshalText
    rw [splitN2_no_sep hns]
    simp [hv]
  · simp only [ne_eq, hvz, not_false_eq_true, if_true]
    unfold channelInputUnmarshalText
    have : url ++ [' '] ++ version = url ++ ' ' :: version := by simp
    rw [this, splitN2_append version hns]
    simp [hv]

theorem c8_witness :
    channelURLValidate (lit "github:NixOS/nixpkgs") = .ok () ∧
    channelInputUnmarshalText
        (channelInputString ⟨lit "github:NixOS/nixpkgs", lit "nixos-unstable"⟩) =
      .ok ⟨lit "github:NixOS/nixpkgs", lit "nixos-unstable"⟩ ∧
    channelInputUnmarshalText
        (channelInputString ⟨lit "https://example.com/a.tar.gz", []⟩) =
      .ok ⟨lit "https://example.com/a.tar.gz", []⟩ :=
  ⟨by decide,
   (c8_channelInput_text_roundtrip (lit "github:NixOS/nixpkgs")
     (lit "nixos-unstable") (by decide)).1,
   (c8_channelInput_text_roundtrip (lit "https://example.com/a.tar.gz")
     [] (by decide)).1⟩

theorem strHasChar_append (c : Char) (a b : Str) :
    strHasChar c (a ++ b) = (strHasChar c a || strHasChar c b) := by
  induction a with
  | nil => simp [strHasChar]
  | cons x xs ih =>
    simp [strHasChar, List.contains_cons] at ih ⊢
    simp [Bool.or_assoc]

theorem goFilepathRel_under (root rest : Str) (hroot : root ≠ []) :
    goFilepathRel root (root ++ '/' :: rest) = .ok rest := by
  unfold goFilepathRel
  have hne : root ++ '/' :: rest ≠ root := by
    intro h
    have := congrArg List.length h
    simp at this
  rw [if_neg hne]
  have hpre : goHasPre (root ++ ['/']) (root ++ '/' :: rest) = true := by
    have : root ++ '/' :: rest = (root ++ ['/']) ++ rest := by simp
    rw [this]
    exact goHasPre_append_self _ _
  rw [if_pos hpre]
  have : root ++ '/' :: rest = (root ++ ['/']) ++ rest := by simp
  rw [this, show root.length + 1 = (root ++ ['/']).length by simp,
    List.drop_left]

theorem goSplit_no_sep {sep : Char} {s : Str} (h : strHasChar sep s = false) :
    goSplit sep s = [s] := by
  induction s with
  | nil => rfl
  | cons c cs ih =>
    simp only [strHasChar, List.contains_cons, Bool.or_eq_false_iff,
      beq_eq_false_iff_ne, ne_eq] at h
    simp only [goSplit]
    rw [if_neg (fun hh => h.1 hh.symm), ih h.2]

theorem goSplit_first_append {a : Str} (b : Str)
    (h : strHasChar '/' a = false) :
    goSplit '/' (a ++ '/' :: b) = a :: goSplit '/' b := by
  induction a with
  | nil => simp [goSplit]
  | cons c cs ih =>
    simp only [strHasChar, List.contains_cons, Bool.or_eq_false_iff,
      beq_eq_false_iff_ne, ne_eq] at h
    simp only [List.cons_append, goSplit]
    rw [if_neg (fun hh => h.1 hh.symm)]
    simp only [List.append_eq]
    rw [ih h.2]

theorem goSplit_ne_nil (sep : Char) (s : Str) : goSplit sep s ≠ [] := by
  induction s with
  | nil => simp [goSplit]
  | cons c cs ih =>
    simp only [goSplit]
    split
    · simp
    · cases hgs : goSplit sep cs with
      | nil => exact absurd hgs ih
      | cons r rs => simp [hgs]

/-- Claim C7: store-path parsing takes the path relative to the root,
keeps only the first path segment, and splits it on the first `-` into
hash and name; a segment with fewer than two dash-separated parts is a
format error, a hash that does not decode under nixbase32 is a format
error, and otherwise the result is the root, name and hash. -/
theorem c7_parseStorePath_shape :
    (∀ root hash name extra : Str, root ≠ [] →
      strHasChar '/' hash = false → strHasChar '-' hash = false →
      strHasChar '/' name = false →
      (nixbase32Decode hash).isSome = true →
      parseStorePath root (root ++ '/' :: (hash ++ '-' :: (name ++ '/' :: extra))) =
        .ok { root := root, name := name, hash := hash }) ∧
    (∀ root seg : Str, root ≠ [] →
      strHasChar '/' seg = false → strHasChar '-' seg = false →
      parseStorePath root (root ++ '/' :: seg) = .error (.invalidName seg)) ∧
    (∀ root hash name : Str, root ≠ [] →
      strHasChar '/' hash = false → strHasChar '-' hash = false →
      strHasChar '/' name = false →
      nixbase32Decode hash = none →
      parseStorePath root (root ++ '/' :: (hash ++ '-' :: name)) =
        .error (.invalidHash hash)) := by
  have hsegOf : ∀ hash name : Str, strHasChar '/' hash = false →
      strHasChar '/' name = false →
      strHasChar '/' (hash ++ '-' :: name) = false := by
    intro hash name hh hn
    rw [strHasChar_append]
    simp only [strHasChar, List.contains_cons] at hn ⊢
    simp [hh, hn, strHasChar] at *
    simp [hh, hn]
  refine ⟨?_, ?_, ?_⟩
  · intro root hash name extra hroot hh1 hh2 hn1 hdec
    unfold parseStorePath
    simp only [hroot, if_false]
    have hassoc : root ++ '/' :: (hash ++ '-' :: (name ++ '/' :: extra)) =
        root ++ '/' :: ((hash ++ '-' :: name) ++ '/' :: extra) := by simp
    rw [hassoc]
    simp only [goFilepathRel_under root _ hroot]
    rw [goSplit_first_append _ (hsegOf hash name hh1 hn1)]
    cases hgs : goSplit '/' extra with
    | nil => exact absurd hgs (goSplit_ne_nil _ _)
    | cons x xs =>
      simp only [splitN2_append name hh2]
      obtain ⟨d, hd⟩ := Option.isSome_iff_exists.mp hdec
      simp only [hd]
  · intro root seg hroot h1 h2
    unfold parseStorePath
    simp only [hroot, if_false]
    simp only [goFilepathRel_under root _ hroot]
    rw [goSplit_no_sep h1]
    simp only [splitN2_no_sep h2]
  · intro root hash name hroot hh1 hh2 hn1 hdec
    unfold parseStorePath
    simp only [hroot, if_false]
    simp only [goFilepathRel_under root _ hroot]
    rw [goSplit_no_sep (hsegOf hash name hh1 hn1)]
    simp only [splitN2_append name hh2, hdec]

theorem c7_witness :
    parseStorePath (lit "/store")
        (lit "/store/4ch3bm9bx98jf68ri8jmx00k479mv8g6-name/extra") =
      .ok { root := lit "/store", name := lit "name",
            hash := lit "4ch3bm9bx98jf68ri8jmx00k479mv8g6" } ∧
    parseStorePath (lit "/store") (lit "/store/justname") =
      .error (.invalidName (lit "justname")) ∧
    parseStorePath (lit "/store") (lit "/store/zze-name") =
      .error (.invalidHash (lit "zze")) := by
  refine ⟨?_, ?_, ?_⟩
  · exact c7_parseStorePath_shape.1 (lit "/store")
      (lit "4ch3bm9bx98jf68ri8jmx00k479mv8g6") (lit "name") (lit "extra")
      (by decide) (by decide) (by decide) (by decide) (by decide)
  · exact c7_parseStorePath_shape.2.1 (lit "/store") (lit "justname")
      (by decide) (by decide) (by decide)
  · exact c7_parseStorePath_shape.2.2 (lit "/store") (lit "zze") (lit "name")
      (by decide) (by decide) (by decide) (by decide) (by decide)

theorem mem_ne_of_not_contains {ch : Char} {s : Str}
    (h : strHasChar ch s = false) : ∀ x ∈ s, x ≠ ch := by
  induction s with
  | nil => simp
  | cons c cs ih =>
    simp only [strHasChar, List.contains_cons, Bool.or_eq_false_iff,
      beq_eq_false_iff_ne, ne_eq] at h
    intro x hx
    rcases List.mem_cons.mp hx with hx | hx
    · subst hx
      exact fun hh => h.1 hh.symm
    · exact ih h.2 x hx

theorem head_append_ne_slash {owner : Str} (t : Str) (ho : owner ≠ [])
    (h : strHasChar '/' owner = false) : (owner ++ t).head? ≠ some '/' := by
  cases owner with
  | nil => exact absurd rfl ho
  | cons c cs =>
    have : c ≠ '/' := mem_ne_of_not_contains h c (by simp)
    simp [this]

theorem goHasPre_slash_false {owner : Str} (t : Str) (ho : owner ≠ [])
    (h : strHasChar '/' owner = false) :
    goHasPre ['/'] (owner ++ t) = false ∧
    goHasPre ['/', '/'] (owner ++ t) = false := by
  cases owner with
  | nil => exact absurd rfl ho
  | cons c cs =>
    have hc : ¬ ('/' = c) := fun hh => mem_ne_of_not_contains h c (by simp) hh.symm
    constructor <;> simp [goHasPre, hc]

theorem takeWhile_append_stop {p : Char → Bool} {l₁ : Str}
    (h : ∀ x ∈ l₁, p x = true) {c : Char} (hc : p c = false) (l₂ : Str) :
    (l₁ ++ c :: l₂).takeWhile p = l₁ := by
  induction l₁ with
  | nil => simp [List.takeWhile_cons, hc]
  | cons x xs ih =>
    have hx : p x = true := h x (by simp)
    simp only [List.cons_append, List.takeWhile_cons, hx, if_true]
    rw [ih (fun y hy => h y (by simp [hy]))]

theorem pathBase_after_slash {repo : Str} (t : Str) (hr : repo ≠ [])
    (h : strHasChar '/' repo = false) : pathBase (t ++ '/' :: repo) = repo := by
  unfold pathBase
  have hne : t ++ '/' :: repo ≠ [] := by
    intro hh
    have := congrArg List.length hh
    simp at this
  rw [if_neg hne]
  have hrev : (t ++ '/' :: repo).reverse = repo.reverse ++ '/' :: t.reverse := by
    simp
  rw [hrev]
  cases hrepo : repo.reverse with
  | nil => exact absurd (by simpa using congrArg List.reverse hrepo) hr
  | cons c cs =>
    have hcmem : c ∈ repo := by
      have : c ∈ repo.reverse := by rw [hrepo]; simp
      simpa using this
    have hc : c ≠ '/' := mem_ne_of_not_contains h c hcmem
    simp only [List.cons_append, List.dropWhile_cons, hc, decide_eq_true_eq,
      if_false]
    have hall : ∀ x ∈ repo.reverse, (fun c => decide (c ≠ '/')) x = true := by
      intro x hx
      have : x ∈ repo := by simpa using hx
      simp [mem_ne_of_not_contains h x this]
    have hstop : (fun c => decide (c ≠ '/')) '/' = false := by simp
    have : (c :: cs ++ '/' :: t.reverse) = repo.reverse ++ '/' :: t.reverse := by
      rw [hrepo]
    rw [show (c :: (cs ++ '/' :: t.reverse)) = repo.reverse ++ '/' :: t.reverse by
        rw [hrepo]; simp]
    rw [if_neg (by
      intro hh
      have := congrArg List.length hh
      simp at this)]
    rw [takeWhile_append_stop hall hstop]
    simp

theorem strHasChar_cons (ch c : Char) (s : Str) :
    strHasChar ch (c :: s) = (decide (ch = c) || strHasChar ch s) := by
  simp [strHasChar, List.contains_cons]

/-- Claim C6: with any nonempty URL-plain owner, repo and version,
resolving `git://github.com/OWNER/REPO <ref>` and the shorthand
`github:OWNER/REPO <ref>` both yield
`https://github.com/OWNER/REPO/archive/<ref>.tar.gz`, and resolving
`gitlab:OWNER/REPO <ref>` yields the GitLab archive URL
`https://gitlab.com/OWNER/REPO` + dash-slash + `archive/<ref>/REPO-<ref>.tar.gz`. -/
theorem c6_resolver_urls (owner repo version : Str)
    (hoz : owner ≠ []) (hos : strHasChar ' ' owner = false)
    (hosl : strHasChar '/' owner = false)
    (hrz : repo ≠ []) (hrs : strHasChar ' ' repo = false)
    (hrsl : strHasChar '/' repo = false)
    (hvz : version ≠ []) (hvs : strHasChar ' ' version = false) :
    channelInputResolve ⟨lit "git://github.com/" ++ owner ++ '/' :: repo, version⟩ =
      .ok (lit "https://github.com/" ++ owner ++ '/' :: repo ++
        lit "/archive/" ++ version ++ lit ".tar.gz") ∧
    channelInputResolve ⟨lit "github:" ++ owner ++ '/' :: repo, version⟩ =
      .ok (lit "https://github.com/" ++ owner ++ '/' :: repo ++
        lit "/archive/" ++ version ++ lit ".tar.gz") ∧
    channelInputResolve ⟨lit "gitlab:" ++ owner ++ '/' :: repo, version⟩ =
      .ok (lit "https://gitlab.com/" ++ owner ++ '/' :: repo ++
        lit "/-/archive/" ++ version ++ '/' :: (repo ++ '-' :: version) ++
        lit ".tar.gz") := by
  have hsp_tail : strHasChar ' ' ('/' :: repo) = false := by
    rw [strHasChar_cons, hrs]
    decide
  have hhttps : (lit "https" : Str) ≠ [] := by decide
  have hghcom : (lit "github.com" : Str) ≠ [] := by decide
  have hglcom : (lit "gitlab.com" : Str) ≠ [] := by decide
  refine ⟨?_, ?_, ?_⟩
  · have hsp1 : strHasChar ' ' (lit "git://github.com/" ++ owner ++ '/' :: repo) =
        false := by
      rw [strHasChar_append, strHasChar_append, hos, hsp_tail,
        show strHasChar ' ' (lit "git://github.com/") = false from by decide]
      decide
    have hparse1 : parseGoURL (lit "git://github.com/" ++ owner ++ '/' :: repo) =
        { scheme := lit "git", opq := [], host := lit "github.com",
          path := '/' :: (owner ++ '/' :: repo) } := rfl
    have hlu1 : lookupA channelResolvers (lit "git") = some resolveGit := rfl
    unfold channelInputResolve
    simp only [channelURLParse, hsp1, Bool.false_eq_true, if_false, hparse1, hlu1]
    unfold resolveGit
    simp only [channelURLParse, hsp1, Bool.false_eq_true, if_false, hparse1]
    rw [if_neg hvz]
    simp only [if_true]
    unfold transGitHubURL goURLString
    dsimp only
    simp only [hhttps, if_true, ne_eq, not_true_eq_false, Bool.false_eq_true,
      if_false, List.head?_cons, reduceIte, not_false_eq_true, true_or,
      List.cons_append, List.append_assoc]
    simp [show lit "https://github.com/" =
      lit "https" ++ ':' :: '/' :: '/' :: (lit "github.com" ++ ['/']) from by decide,
      List.append_assoc]
  · have hsp2 : strHasChar ' ' (lit "github:" ++ owner ++ '/' :: repo) = false := by
      rw [strHasChar_append, strHasChar_append, hos, hsp_tail,
        show strHasChar ' ' (lit "github:") = false from by decide]
      decide
    obtain ⟨hg1, hg2⟩ := goHasPre_slash_false ('/' :: repo) hoz hosl
    have hopq : owner ++ '/' :: repo ≠ [] := by
      cases owner <;> simp
    have hparse2 : parseGoURL (lit "github:" ++ owner ++ '/' :: repo) =
        { scheme := lit "github", opq := owner ++ '/' :: repo, host := [],
          path := [] } := by
      unfold parseGoURL
      simp only [show schemeSplit (lit "github:" ++ owner ++ '/' :: repo) =
        some (lit "github", owner ++ '/' :: repo) from rfl]
      simp only [hg1, hg2, Bool.false_eq_true, if_false]
    have hlu2 : lookupA channelResolvers (lit "github") = some resolveGitHub := rfl
    unfold channelInputResolve
    simp only [channelURLParse, hsp2, Bool.false_eq_true, if_false, hparse2, hlu2]
    unfold resolveGitHub resolveServiceURL
    simp only [channelURLParse, hsp2, Bool.false_eq_true, if_false, hparse2]
    rw [if_pos hopq]
    unfold transGitHubURL goURLString
    dsimp only
    have hpne : (owner ++ '/' :: repo ++ lit "/archive/" ++ version ++
        lit ".tar.gz" : Str) ≠ [] := by simp
    have hphead : List.head? (owner ++ '/' :: repo ++ lit "/archive/" ++
        version ++ lit ".tar.gz") ≠ some '/' := by
      rw [List.append_assoc, List.append_assoc, List.append_assoc]
      exact head_append_ne_slash _ hoz hosl
    have hohead : ¬List.head? owner = some '/' := by
      cases owner with
      | nil => simp
      | cons c cs =>
        have : c ≠ '/' := mem_ne_of_not_contains hosl c (by simp)
        simp [this]
    simp [hhttps, hghcom, hohead, hoz, show lit "https://github.com/" =
      lit "https" ++ ':' :: '/' :: '/' :: (lit "github.com" ++ ['/']) from by decide,
      List.append_assoc]
  · have hsp3 : strHasChar ' ' (lit "gitlab:" ++ owner ++ '/' :: repo) = false := by
      rw [strHasChar_append, strHasChar_append, hos, hsp_tail,
        show strHasChar ' ' (lit "gitlab:") = false from by decide]
      decide
    obtain ⟨hg1, hg2⟩ := goHasPre_slash_false ('/' :: repo) hoz hosl
    have hopq : owner ++ '/' :: repo ≠ [] := by
      cases owner <;> simp
    have hparse3 : parseGoURL (lit "gitlab:" ++ owner ++ '/' :: repo) =
        { scheme := lit "gitlab", opq := owner ++ '/' :: repo, host := [],
          path := [] } := by
      unfold parseGoURL
      simp only [show schemeSplit (lit "gitlab:" ++ owner ++ '/' :: repo) =
        some (lit "gitlab", owner ++ '/' :: repo) from rfl]
      simp only [hg1, hg2, Bool.false_eq_true, if_false]
    have hlu3 : lookupA channelResolvers (lit "gitlab") = some resolveGitLab := rfl
    unfold channelInputResolve
    simp only [channelURLParse, hsp3, Bool.false_eq_true, if_false, hparse3, hlu3]
    unfold resolveGitLab resolveServiceURL
    simp only [channelURLParse, hsp3, Bool.false_eq_true, if_false, hparse3]
    rw [if_pos hopq]
    unfold transGitLabURL goURLString
    dsimp only
    rw [pathBase_after_slash owner hrz hrsl]
    have hohead : ¬List.head? owner = some '/' := by
      cases owner with
      | nil => simp
      | cons c cs =>
        have : c ≠ '/' := mem_ne_of_not_contains hosl c (by simp)
        simp [this]
    simp [hhttps, hglcom, hohead, hoz, show lit "https://gitlab.com/" =
      lit "https" ++ ':' :: '/' :: '/' :: (lit "gitlab.com" ++ ['/']) from by decide,
      List.append_assoc]

theorem c6_witness :
    channelInputResolve ⟨lit "git://github.com/NixOS/nixpkgs", lit "1ffba9f"⟩ =
      .ok (lit "https://github.com/NixOS/nixpkgs/archive/1ffba9f.tar.gz") ∧
    channelInputResolve ⟨lit "github:NixOS/nixpkgs", lit "1ffba9f"⟩ =
      .ok (lit "https://github.com/NixOS/nixpkgs/archive/1ffba9f.tar.gz") ∧
    channelInputResolve ⟨lit "gitlab:NixOS/nixpkgs", lit "1ffba9f"⟩ =
      .ok (lit "https://gitlab.com/NixOS/nixpkgs/-/archive/1ffba9f/nixpkgs-1ffba9f.tar.gz") := by
  have h := c6_resolver_urls (lit "NixOS") (lit "nixpkgs") (lit "1ffba9f")
    (by decide) (by decide) (by decide) (by decide) (by decide) (by decide)
    (by decide) (by decide)
  exact ⟨h.1, h.2.1, h.2.2⟩

/-- Claim C3 (corrected): a name of the combined registry without a lock
entry makes `applyUser` fail with that name's no-lock error and without
rollback, but the check runs inside the add loop: combined entries
processed earlier have already been added (and stay added).  Only names
not added before the failure are untouched; in particular, when the
missing-lock name comes first in iteration order, no mutation at all
precedes the failure. -/
theorem c3_noLock_fails_midway
    (g : GatewayOracle) (globalReg : ChannelRegistry) (usercfg : UserConfig)
    (lockChannels : LockAssoc) (w : World)
    (pre : List (Str × ChannelInput)) (nm : Str) (inpm : ChannelInput)
    (rest : List (Str × ChannelInput))
    (hov : usercfg.overrideChannels = false)
    (hcomb : combineChannelRegistries [globalReg, usercfg.registry] =
      .ok (pre ++ (nm, inpm) :: rest))
    (hpre : ∀ p ∈ pre, ∃ lk, lookupA lockChannels p.2 = some lk ∧
      g.addOK p.1 lk.url = true)
    (hm : lookupA lockChannels inpm = none) :
    ∃ w', applyUser g globalReg usercfg lockChannels w =
        { err := some (.noLock nm), world := w' } ∧
      (∀ n, (∀ p ∈ pre, p.1 ≠ n) → chanLookup w' n = chanLookup w n) ∧
      (pre = [] → w' = w) := by
  have main : ∀ (pre : List (Str × ChannelInput)) (w : World),
      (∀ p ∈ pre, ∃ lk, lookupA lockChannels p.2 = some lk ∧
        g.addOK p.1 lk.url = true) →
      ∃ w', applyUserAddLoop g lockChannels (pre ++ (nm, inpm) :: rest) w =
          .noLock nm w' ∧
        (∀ n, (∀ p ∈ pre, p.1 ≠ n) → chanLookup w' n = chanLookup w n) ∧
        (pre = [] → w' = w) := by
    intro pre
    induction pre with
    | nil =>
      intro w _
      refine ⟨w, ?_, by simp, fun _ => rfl⟩
      simp [applyUserAddLoop, hm]
    | cons p pre' ih =>
      intro w hp
      obtain ⟨lk, hlk, hok⟩ := hp p (by simp)
      obtain ⟨w', hw1, hw2, _⟩ :=
        ih (chanAdd w p.1 lk.url) (fun q hq => hp q (by simp [hq]))
      refine ⟨w', ?_, ?_, by simp⟩
      · simp only [List.cons_append, applyUserAddLoop, hlk, hok, if_true]
        exact hw1
      · intro n hn
        rw [hw2 n (fun q hq => hn q (by simp [hq])), chanLookup_add]
        rw [if_neg (hn p (by simp))]
  obtain ⟨w', hw1, hw2, hw3⟩ := main pre w hpre
  refine ⟨w', ?_, hw2, hw3⟩
  unfold applyUser
  simp only [hov, Bool.false_eq_true, if_false, not_true_eq_false, hcomb, hw1]

theorem c3_counterexample :
    (applyUser okGateway ⟨[], []⟩
      ⟨false, false,
        ⟨[(lit "a", ⟨lit "https://a", []⟩), (lit "b", ⟨lit "https://b", []⟩)],
         []⟩⟩
      [(⟨lit "https://a", []⟩, ⟨lit "ua", lit "h"⟩)] ⟨[]⟩).err =
        some (.noLock (lit "b")) ∧
    (applyUser okGateway ⟨[], []⟩
      ⟨false, false,
        ⟨[(lit "a", ⟨lit "https://a", []⟩), (lit "b", ⟨lit "https://b", []⟩)],
         []⟩⟩
      [(⟨lit "https://a", []⟩, ⟨lit "ua", lit "h"⟩)] ⟨[]⟩).world ≠
        (⟨[]⟩ : World) := by decide

theorem c3_witness :
    ∃ w', applyUser okGateway ⟨[], []⟩
        ⟨false, false, ⟨[(lit "b", ⟨lit "https://b", []⟩)], []⟩⟩
        [] ⟨[(lit "x", lit "ux")]⟩ =
        { err := some (.noLock (lit "b")), world := w' } ∧
      (∀ n, (∀ p ∈ ([] : List (Str × ChannelInput)), p.1 ≠ n) →
        chanLookup w' n = chanLookup ⟨[(lit "x", lit "ux")]⟩ n) ∧
      (([] : List (Str × ChannelInput)) = [] → w' = ⟨[(lit "x", lit "ux")]⟩) :=
  c3_noLock_fails_midway okGateway ⟨[], []⟩
    ⟨false, false, ⟨[(lit "b", ⟨lit "https://b", []⟩)], []⟩⟩
    [] ⟨[(lit "x", lit "ux")]⟩ [] (lit "b") ⟨lit "https://b", []⟩ []
    (by decide) (by decide)
    (fun p hp => absurd hp (List.not_mem_nil p)) (by decide)

theorem lookupA_eq_none_of_not_mem {α β : Type} [DecidableEq α]
    (l : List (α × β)) (n : α) (h : n ∉ l.map Prod.fst) : lookupA l n = none := by
  induction l with
  | nil => rfl
  | cons p rest ih =>
    simp only [List.map_cons, List.mem_cons] at h
    push_neg at h
    simp only [lookupA, fun hh : p.1 = n => h.1 hh.symm]
    rw [if_neg (fun hh : p.1 = n => h.1 hh.symm)]
    exact ih h.2

theorem foldRemove_lookup (g : GatewayOracle) (ucs : List (Str × ChannelInput))
    (hrem : ∀ p ∈ ucs, g.removeOK p.1 = true) (w' : World) (n : Str) :
    chanLookup (ucs.foldl
        (fun w p => if g.removeOK p.1 then chanRemove w p.1 else w) w') n =
      if n ∈ ucs.map Prod.fst then none else chanLookup w' n := by
  induction ucs generalizing w' with
  | nil => simp
  | cons p rest ih =>
    have hp : g.removeOK p.1 = true := hrem p (by simp)
    simp only [List.foldl_cons, hp, if_true]
    rw [ih (fun q hq => hrem q (by simp [hq]))]
    by_cases hmem : n ∈ rest.map Prod.fst
    · simp [hmem]
    · by_cases hnp : n = p.1
      · simp [hmem, hnp, chanLookup_remove]
      · simp [hmem, hnp, chanLookup_remove]

theorem foldAdd_lookup (g : GatewayOracle) (old : List (Str × Str))
    (hadd : ∀ p ∈ old, g.addOK p.1 p.2 = true)
    (hnodup : (old.map Prod.fst).Nodup) (w₁ : World) (n : Str) :
    chanLookup (old.foldl
        (fun w p => if g.addOK p.1 p.2 then chanAdd w p.1 p.2 else w) w₁) n =
      match lookupA old n with
      | some u => some u
      | none => chanLookup w₁ n := by
  induction old generalizing w₁ with
  | nil => simp [lookupA]
  | cons p rest ih =>
    have hp : g.addOK p.1 p.2 = true := hadd p (by simp)
    simp only [List.map_cons, List.nodup_cons] at hnodup
    simp only [List.foldl_cons, hp, if_true]
    rw [ih (fun q hq => hadd q (by simp [hq])) hnodup.2]
    by_cases hnp : p.1 = n
    · subst hnp
      rw [lookupA_eq_none_of_not_mem rest p.1 hnodup.1]
      simp [lookupA, chanLookup_add]
    · simp only [lookupA, hnp, if_false]
      cases lookupA rest n with
      | some u => rfl
      | none => simp [chanLookup_add, hnp]

theorem applyUserRollback_restores (g : GatewayOracle)
    (userChannels : List (Str × ChannelInput)) (w w' : World)
    (hkeys : (w.entries.map Prod.fst).Nodup)
    (hrem : ∀ p ∈ userChannels, g.removeOK p.1 = true)
    (hadd : ∀ p ∈ w.entries, g.addOK p.1 p.2 = true)
    (hinv : ∀ n, n ∉ userChannels.map Prod.fst →
      chanLookup w' n = chanLookup w n) :
    ∀ n, chanLookup (applyUserRollback g userChannels w.entries w') n =
      chanLookup w n := by
  intro n
  unfold applyUserRollback
  rw [foldAdd_lookup g w.entries hadd hkeys]
  cases hl : lookupA w.entries n with
  | some u => exact hl.symm
  | none =>
    rw [foldRemove_lookup g userChannels hrem]
    by_cases hmem : n ∈ userChannels.map Prod.fst
    · simp only [hmem, if_true]
      exact hl.symm
    · simp only [hmem, if_false]
      exact hinv n hmem

theorem applyUserAddLoop_untouched (g : GatewayOracle)
    (lockChannels : LockAssoc) (userKeys : List Str) :
    ∀ (cs : List (Str × ChannelInput)) (w₀ : World),
      (∀ p ∈ cs, p.1 ∈ userKeys) →
      ∀ n, n ∉ userKeys →
        (∀ w₁, applyUserAddLoop g lockChannels cs w₀ = .ok w₁ →
          chanLookup w₁ n = chanLookup w₀ n) ∧
        (∀ nm w₁, applyUserAddLoop g lockChannels cs w₀ = .noLock nm w₁ →
          chanLookup w₁ n = chanLookup w₀ n) ∧
        (∀ nm w₁, applyUserAddLoop g lockChannels cs w₀ = .failed nm w₁ →
          chanLookup w₁ n = chanLookup w₀ n) := by
  intro cs
  induction cs with
  | nil =>
    intro w₀ _ n _
    refine ⟨?_, ?_, ?_⟩
    · intro w₁ h
      simp only [applyUserAddLoop, AddLoopRes.ok.injEq] at h
      rw [← h]
    · intro nm w₁ h
      simp [applyUserAddLoop] at h
    · intro nm w₁ h
      simp [applyUserAddLoop] at h
  | cons p cs' ih =>
    intro w₀ hsub n hn
    have hp1 : p.1 ∈ userKeys := hsub p (by simp)
    have hne : p.1 ≠ n := fun hh => hn (hh ▸ hp1)
    cases hlk : lookupA lockChannels p.2 with
    | none =>
      refine ⟨?_, ?_, ?_⟩
      · intro w₁ h
        simp [applyUserAddLoop, hlk] at h
      · intro nm w₁ h
        simp only [applyUserAddLoop, hlk, AddLoopRes.noLock.injEq] at h
        rw [← h.2]
      · intro nm w₁ h
        simp [applyUserAddLoop, hlk] at h
    | some lk =>
      cases hok : g.addOK p.1 lk.url with
      | false =>
        refine ⟨?_, ?_, ?_⟩
        · intro w₁ h
          simp [applyUserAddLoop, hlk, hok] at h
        · intro nm w₁ h
          simp [applyUserAddLoop, hlk, hok] at h
        · intro nm w₁ h
          simp only [applyUserAddLoop, hlk, hok, Bool.false_eq_true, if_false,
            AddLoopRes.failed.injEq] at h
          rw [← h.2]
      | true =>
        have ih' := ih (chanAdd w₀ p.1 lk.url)
          (fun q hq => hsub q (by simp [hq])) n hn
        refine ⟨?_, ?_, ?_⟩
        · intro w₁ h
          simp only [applyUserAddLoop, hlk, hok, if_true] at h
          rw [ih'.1 w₁ h, chanLookup_add, if_neg hne]
        · intro nm w₁ h
          simp only [applyUserAddLoop, hlk, hok, if_true] at h
          rw [ih'.2.1 nm w₁ h, chanLookup_add, if_neg hne]
        · intro nm w₁ h
          simp only [applyUserAddLoop, hlk, hok, if_true] at h
          rw [ih'.2.2 nm w₁ h, chanLookup_add, if_neg hne]

/-- Claim C2 (corrected): when applying a user's declarations with
`overrideChannels=false` fails at a gateway add or update step, the
rollback removes every name of the user's *own* declared channel map (not
every name this run attempted — combined names contributed only by the
global registry or by aliases are not removed), re-adds every (name, url)
pair of the pre-apply snapshot, and the original failure is returned.
When every combined name lies in the user's declared channel map and the
rollback's own gateway calls succeed, the live channel list afterwards
equals exactly the snapshot. -/
theorem c2_apply_failure_rolls_back
    (g : GatewayOracle) (globalReg : ChannelRegistry) (usercfg : UserConfig)
    (lockChannels : LockAssoc) (w : World)
    (cs : List (Str × ChannelInput)) (e : ApplyErr)
    (hov : usercfg.overrideChannels = false)
    (hkeys : (w.entries.map Prod.fst).Nodup)
    (hcomb : combineChannelRegistries [globalReg, usercfg.registry] = .ok cs)
    (hsub : ∀ p ∈ cs, p.1 ∈ usercfg.registry.channels.map Prod.fst)
    (hrem : ∀ p ∈ usercfg.registry.channels, g.removeOK p.1 = true)
    (hadd : ∀ p ∈ w.entries, g.addOK p.1 p.2 = true)
    (herr : (applyUser g globalReg usercfg lockChannels w).err = some e)
    (he : (∃ nmf, e = .addFailed nmf) ∨ e = .updateFailed) :
    ∀ n, chanLookup (applyUser g globalReg usercfg lockChannels w).world n =
      chanLookup w n := by
  intro n
  have happ : applyUser g globalReg usercfg lockChannels w =
      (match applyUserAddLoop g lockChannels cs w with
       | .noLock name w' => { err := some (.noLock name), world := w' }
       | .failed name w' =>
         { err := some (.addFailed name),
           world := applyUserRollback g usercfg.registry.channels w.entries w' }
       | .ok w' =>
         if g.updateOK then { err := none, world := w' }
         else
           { err := some .updateFailed,
             world := applyUserRollback g usercfg.registry.channels w.entries w' }) := by
    unfold applyUser
    simp only [hov, Bool.false_eq_true, if_false, not_true_eq_false, hcomb]
  have huntouched := applyUserAddLoop_untouched g lockChannels
    (usercfg.registry.channels.map Prod.fst) cs w hsub
  rw [happ] at herr ⊢
  cases haddl : applyUserAddLoop g lockChannels cs w with
  | ok w' =>
    rw [haddl] at herr
    dsimp only at herr ⊢
    cases hup : g.updateOK with
    | true =>
      rw [hup] at herr
      simp at herr
    | false =>
      simp only [Bool.false_eq_true, if_false]
      exact applyUserRollback_restores g usercfg.registry.channels w w'
        hkeys hrem hadd
        (fun m hm => (huntouched m hm).1 w' haddl) n
  | noLock nm w' =>
    rw [haddl] at herr
    dsimp only at herr
    rcases he with ⟨nmf, rfl⟩ | rfl <;> simp at herr
  | failed nm w' =>
    dsimp only
    exact applyUserRollback_restores g usercfg.registry.channels w w'
      hkeys hrem hadd
      (fun m hm => (huntouched m hm).2.2 nm w' haddl) n

theorem c2_counterexample :
    (applyUser ⟨fun n _ => !(n == lit "u"), fun _ => true, true⟩
        ⟨[(lit "g", ⟨lit "https://g", []⟩)], []⟩
        ⟨false, false, ⟨[(lit "u", ⟨lit "https://u", []⟩)], []⟩⟩
        [(⟨lit "https://g", []⟩, ⟨lit "ug", lit "h"⟩),
         (⟨lit "https://u", []⟩, ⟨lit "uu", lit "h"⟩)]
        ⟨[]⟩).err = some (.addFailed (lit "u")) ∧
    (applyUser ⟨fun n _ => !(n == lit "u"), fun _ => true, true⟩
        ⟨[(lit "g", ⟨lit "https://g", []⟩)], []⟩
        ⟨false, false, ⟨[(lit "u", ⟨lit "https://u", []⟩)], []⟩⟩
        [(⟨lit "https://g", []⟩, ⟨lit "ug", lit "h"⟩),
         (⟨lit "https://u", []⟩, ⟨lit "uu", lit "h"⟩)]
        ⟨[]⟩).world = (⟨[(lit "g", lit "ug")]⟩ : World) ∧
    (⟨[(lit "g", lit "ug")]⟩ : World) ≠ (⟨[]⟩ : World) := by decide

theorem c2_witness :
    (applyUser ⟨fun n _ => !(n == lit "b"), fun _ => true, true⟩
        ⟨[], []⟩
        ⟨false, false,
          ⟨[(lit "a", ⟨lit "https://a", []⟩), (lit "b", ⟨lit "https://b", []⟩)],
           []⟩⟩
        [(⟨lit "https://a", []⟩, ⟨lit "ua", lit "h"⟩),
         (⟨lit "https://b", []⟩, ⟨lit "ub", lit "h"⟩)]
        ⟨[]⟩).err = some (.addFailed (lit "b")) ∧
    chanLookup (applyUser ⟨fun n _ => !(n == lit "b"), fun _ => true, true⟩
        ⟨[], []⟩
        ⟨false, false,
          ⟨[(lit "a", ⟨lit "https://a", []⟩), (lit "b", ⟨lit "https://b", []⟩)],
           []⟩⟩
        [(⟨lit "https://a", []⟩, ⟨lit "ua", lit "h"⟩),
         (⟨lit "https://b", []⟩, ⟨lit "ub", lit "h"⟩)]
        ⟨[]⟩).world (lit "a") = chanLookup ⟨[]⟩ (lit "a") :=
  ⟨by decide,
   c2_apply_failure_rolls_back
     ⟨fun n _ => !(n == lit "b"), fun _ => true, true⟩ ⟨[], []⟩
     ⟨false, false,
       ⟨[(lit "a", ⟨lit "https://a", []⟩), (lit "b", ⟨lit "https://b", []⟩)],
        []⟩⟩
     [(⟨lit "https://a", []⟩, ⟨lit "ua", lit "h"⟩),
      (⟨lit "https://b", []⟩, ⟨lit "ub", lit "h"⟩)]
     ⟨[]⟩
     [(lit "a", ⟨lit "https://a", []⟩), (lit "b", ⟨lit "https://b", []⟩)]
     (.addFailed (lit "b"))
     (by decide) (by decide) (by decide) (by decide) (by decide)
     (fun p hp => absurd hp (List.not_mem_nil p)) (by decide)
     (Or.inl ⟨lit "b", rfl⟩) (lit "a")⟩

theorem filter_idem {α : Type} (p : α → Bool) (l : List α) :
    (l.filter p).filter p = l.filter p := by
  induction l with
  | nil => rfl
  | cons x xs ih =>
    by_cases hx : p x
    · simp [List.filter_cons, hx, ih]
    · simp [List.filter_cons, hx, ih]

theorem filter_nonTmp_mem_ne (w : World) (x : Str)
    (hx : goHasPre tmpPre x = true) :
    ∀ p ∈ w.entries.filter (fun e => ¬goHasPre tmpPre e.1), p.1 ≠ x := by
  intro p hp hh
  have hmem := List.of_mem_filter hp
  rw [hh, hx] at hmem
  simp at hmem

/-- Claim C9: a reconciliation run first removes every temporary-prefixed
entry, then adds its own temporary entries and never removes them;
consequently reconciling declared inputs {A, B} with no existing lock in
full-update mode produces a lock of exactly A and B with their (nonempty)
measured hashes, the run's own temporary entries remain in the namespace
at the end of the run, and the next run's opening cleanup pass removes
exactly them. -/
theorem c9_reconcile_temp_namespace
    (A B : ChannelInput) (uA uB : Str)
    (resolve : ChannelInput → Except String Str)
    (shortHashF : Str → Str) (storeDir : Str) (chSrc : Str → Str)
    (w : World) (spA spB : StorePath)
    (hA : resolve A = .ok uA) (hB : resolve B = .ok uB)
    (hAB : A ≠ B)
    (hname : shortHashF uA ++ ['-'] ++ pathBase A.url ≠
      shortHashF uB ++ ['-'] ++ pathBase B.url)
    (hmA : parseStorePath storeDir
      (chSrc (tmpPre ++ (shortHashF uA ++ ['-'] ++ pathBase A.url))) = .ok spA)
    (hmB : parseStorePath storeDir
      (chSrc (tmpPre ++ (shortHashF uB ++ ['-'] ++ pathBase B.url))) = .ok spB)
    (hhA : spA.hash ≠ []) (hhB : spB.hash ≠ []) :
    applyGlobal .updateInputs [] [A, B] resolve okGateway shortHashF storeDir
        chSrc w =
      .ok ([(A, ⟨uA, spA.hash⟩), (B, ⟨uB, spB.hash⟩)],
        ⟨w.entries.filter (fun e => ¬goHasPre tmpPre e.1) ++
          [(tmpPre ++ (shortHashF uA ++ ['-'] ++ pathBase A.url), uA),
           (tmpPre ++ (shortHashF uB ++ ['-'] ++ pathBase B.url), uB)]⟩) ∧
    (∀ q ∈ [(A, (⟨uA, spA.hash⟩ : ChannelLock)), (B, ⟨uB, spB.hash⟩)],
      q.2.storeHash ≠ []) ∧
    removeAllTmp
        ⟨w.entries.filter (fun e => ¬goHasPre tmpPre e.1) ++
          [(tmpPre ++ (shortHashF uA ++ ['-'] ++ pathBase A.url), uA),
           (tmpPre ++ (shortHashF uB ++ ['-'] ++ pathBase B.url), uB)]⟩ =
      ⟨w.entries.filter (fun e => ¬goHasPre tmpPre e.1)⟩ := by
  have hpreA : goHasPre tmpPre
      (tmpPre ++ (shortHashF uA ++ ['-'] ++ pathBase A.url)) = true :=
    goHasPre_append_self _ _
  have hpreB : goHasPre tmpPre
      (tmpPre ++ (shortHashF uB ++ ['-'] ++ pathBase B.url)) = true :=
    goHasPre_append_self _ _
  have hnAB : (tmpPre ++ (shortHashF uA ++ ['-'] ++ pathBase A.url) : Str) ≠
      tmpPre ++ (shortHashF uB ++ ['-'] ++ pathBase B.url) := by
    intro hh
    exact hname (List.append_cancel_left hh)
  have hadd1 : chanAdd (removeAllTmp w)
      (tmpPre ++ (shortHashF uA ++ ['-'] ++ pathBase A.url)) uA =
      ⟨w.entries.filter (fun e => ¬goHasPre tmpPre e.1) ++
        [(tmpPre ++ (shortHashF uA ++ ['-'] ++ pathBase A.url), uA)]⟩ := by
    unfold chanAdd removeAllTmp
    rw [upsertA_append_of_absent _ _ _ (filter_nonTmp_mem_ne w _ hpreA)]
  have hadd2 : chanAdd
      ⟨w.entries.filter (fun e => ¬goHasPre tmpPre e.1) ++
        [(tmpPre ++ (shortHashF uA ++ ['-'] ++ pathBase A.url), uA)]⟩
      (tmpPre ++ (shortHashF uB ++ ['-'] ++ pathBase B.url)) uB =
      ⟨w.entries.filter (fun e => ¬goHasPre tmpPre e.1) ++
        [(tmpPre ++ (shortHashF uA ++ ['-'] ++ pathBase A.url), uA),
         (tmpPre ++ (shortHashF uB ++ ['-'] ++ pathBase B.url), uB)]⟩ := by
    unfold chanAdd
    rw [upsertA_append_of_absent _ _ _ (by
      intro p hp
      rcases List.mem_append.mp hp with hp | hp
      · exact filter_nonTmp_mem_ne w _ hpreB p hp
      · simp only [List.mem_singleton] at hp
        rw [hp]
        exact hnAB)]
    simp
  have haddloop : rclAddLoop okGateway shortHashF [(A, uA), (B, uB)]
      (removeAllTmp w) =
      .ok ([(tmpPre ++ (shortHashF uA ++ ['-'] ++ pathBase A.url), A),
            (tmpPre ++ (shortHashF uB ++ ['-'] ++ pathBase B.url), B)],
        ⟨w.entries.filter (fun e => ¬goHasPre tmpPre e.1) ++
          [(tmpPre ++ (shortHashF uA ++ ['-'] ++ pathBase A.url), uA),
           (tmpPre ++ (shortHashF uB ++ ['-'] ++ pathBase B.url), uB)]⟩) := by
    simp only [rclAddLoop, okGateway, if_true, hadd1, hadd2]
  have hmeasure : rclMeasureLoop storeDir chSrc [(A, uA), (B, uB)]
      [(tmpPre ++ (shortHashF uA ++ ['-'] ++ pathBase A.url), A),
       (tmpPre ++ (shortHashF uB ++ ['-'] ++ pathBase B.url), B)] =
      .ok [(A, ⟨uA, spA.hash⟩), (B, ⟨uB, spB.hash⟩)] := by
    simp only [rclMeasureLoop, hmA, hmB, lookupA, if_pos rfl, hAB, if_false]
    simp [lookupA, hAB, fun h : A = B => hAB h]
  have hrcl : resolveChannelLocksM okGateway shortHashF storeDir chSrc
      [(A, uA), (B, uB)] (removeAllTmp w) =
      .ok ([(A, ⟨uA, spA.hash⟩), (B, ⟨uB, spB.hash⟩)],
        ⟨w.entries.filter (fun e => ¬goHasPre tmpPre e.1) ++
          [(tmpPre ++ (shortHashF uA ++ ['-'] ++ pathBase A.url), uA),
           (tmpPre ++ (shortHashF uB ++ ['-'] ++ pathBase B.url), uB)]⟩) := by
    unfold resolveChannelLocksM
    rw [if_neg (by simp)]
    simp only [haddloop, hmeasure, show okGateway.updateOK = true from rfl,
      if_true]
  have hcw : computeWorkingURLs .updateInputs [] [A, B] resolve =
      .ok ([(A, uA), (B, uB)], [A, B]) := by
    unfold computeWorkingURLs
    simp only [show (UpdateFlag.updateInputs.is .updateInputs) = true from rfl,
      if_true, resolveInputs, hA, hB]
  have hmerge : mergeLocks .updateInputs []
      [(A, ⟨uA, spA.hash⟩), (B, ⟨uB, spB.hash⟩)] =
      .ok [(A, ⟨uA, spA.hash⟩), (B, ⟨uB, spB.hash⟩)] := by
    simp [mergeLocks, lookupA, upsertA, fun h : A = B => hAB h]
  refine ⟨?_, ?_, ?_⟩
  · unfold applyGlobal
    simp only [hcw, hrcl, hmerge]
  · intro q hq
    rcases List.mem_cons.mp hq with hq | hq
    · rw [hq]; exact hhA
    · simp only [List.mem_singleton] at hq
      rw [hq]; exact hhB
  · unfold removeAllTmp
    congr 1
    rw [List.filter_append, filter_idem]
    simp [hpreA, hpreB]
    exact ⟨goHasPre_append_self _ _, goHasPre_append_self _ _⟩

theorem c9_witness :
    applyGlobal .updateInputs []
      [⟨lit "https://a/x", []⟩, ⟨lit "https://b/y", []⟩]
      (fun i => .ok i.url) okGateway (fun u => u.take 4) (lit "/nix/store")
      (fun _ => lit "/nix/store/4ch3bm9bx98jf68ri8jmx00k479mv8g6-chan")
      ⟨[(lit "bonito-tmp-old", lit "uold"), (lit "keep", lit "ukeep")]⟩ =
    .ok ([(⟨lit "https://a/x", []⟩,
            ⟨lit "https://a/x", lit "4ch3bm9bx98jf68ri8jmx00k479mv8g6"⟩),
          (⟨lit "https://b/y", []⟩,
            ⟨lit "https://b/y", lit "4ch3bm9bx98jf68ri8jmx00k479mv8g6"⟩)],
      ⟨[(lit "keep", lit "ukeep"),
        (lit "bonito-tmp-http-x", lit "https://a/x"),
        (lit "bonito-tmp-http-y", lit "https://b/y")]⟩) := by
  have h := c9_reconcile_temp_namespace
    ⟨lit "https://a/x", []⟩ ⟨lit "https://b/y", []⟩
    (lit "https://a/x") (lit "https://b/y")
    (fun i => .ok i.url) (fun u => u.take 4) (lit "/nix/store")
    (fun _ => lit "/nix/store/4ch3bm9bx98jf68ri8jmx00k479mv8g6-chan")
    ⟨[(lit "bonito-tmp-old", lit "uold"), (lit "keep", lit "ukeep")]⟩
    ⟨lit "/nix/store", lit "chan", lit "4ch3bm9bx98jf68ri8jmx00k479mv8g6"⟩
    ⟨lit "/nix/store", lit "chan", lit "4ch3bm9bx98jf68ri8jmx00k479mv8g6"⟩
    (by decide) (by decide) (by decide) (by decide) (by decide) (by decide)
    (by decide) (by decide)
  exact h.1
